import Mathlib

/-!
Verification development for the Telegram MDML middleware
(`telegram_mdml.py`): a shallow embedding of the historical-value
extraction, normalization and resolution pipeline, together with proofs
about its ordering, filtering and validation behaviour.

Modelling conventions:
* Python strings are `List Char` (ASCII fragment; the Unicode-specific
  behaviour of `str.lower`, `str.strip` and `int` outside ASCII is not
  exercised by the code paths under study and is not modelled).
* Python `datetime` objects are modelled as `Nat`; `datetime.min` is `0`.
  Every `datetime` value is truthy in Python, so the sort key
  `v.date if v.date else datetime.min` maps an absent date to
  `datetime.min`, i.e. to `0` here.
* Fallible constructors (`raise` in `__post_init__`) become
  `Option`-returning functions; `get_id`/`get_type` become `Except`.
* `sorted(values, key=..., reverse=True)` is Python's stable sort; it is
  modelled by a stable insertion sort for the descending key order.
* The external `mdml` parser is out of scope (spec section 6); a
  `Document` is modelled abstractly as the two lookup tables backing
  `get_value` and `get_field`.
-/

namespace TelegramMdml

/-! Character classes and Python string helpers. -/

/-- The backtick character, written via its code point. -/
def backtickChar : Char := Char.ofNat 96

/-- Whitespace characters stripped by Python's `str.strip()` (ASCII part). -/
def pyIsSpace (c : Char) : Bool :=
  c = ' ' || c = '\t' || c = '\n' || c = '\r' || c = Char.ofNat 11 || c = Char.ofNat 12

/-- Characters allowed by the username regex class `[a-zA-Z0-9_]`. -/
def isUsernameChar (c : Char) : Bool :=
  c.isAlpha || c.isDigit || c = '_'

/-- Characters allowed by the invite-hash regex class `[a-zA-Z0-9_-]`. -/
def isInviteHashChar (c : Char) : Bool :=
  c.isAlpha || c.isDigit || c = '_' || c = '-'

/-- Python `s.strip(chars)` for a character class `p`: drop the longest
run of matching characters from both ends. -/
def stripWhile (p : Char → Bool) (s : List Char) : List Char :=
  ((s.dropWhile p).reverse.dropWhile p).reverse

/-- Models `value.strip('\x60').strip()`: first strip backticks, then
whitespace, from both ends. -/
def stripTicksWs (s : List Char) : List Char :=
  stripWhile pyIsSpace (stripWhile (fun c => c = backtickChar) s)

/-- Python `c.lower()` restricted to ASCII. -/
def pyLower (s : List Char) : List Char := s.map Char.toLower

/-- Full match of `re.match(r'^<class>\x7b<lo>,<hi>\x7d$', s)`: the whole
string is `lo..hi` characters of the class, or the same followed by one
trailing newline (Python's `$` also matches just before a final `'\n'`). -/
def reClassRangeMatch (p : Char → Bool) (lo hi : Nat) (s : List Char) : Bool :=
  (lo ≤ s.length && s.length ≤ hi && s.all p) ||
    (s.getLast? = some '\n' && lo ≤ s.dropLast.length && s.dropLast.length ≤ hi &&
      s.dropLast.all p)

/-- Full match of `re.match(r'^<class>+$', s)`, with the same trailing
newline allowance as `reClassRangeMatch`. -/
def reClassPlusMatch (p : Char → Bool) (s : List Char) : Bool :=
  (!s.isEmpty && s.all p) ||
    (s.getLast? = some '\n' && !s.dropLast.isEmpty && s.dropLast.all p)

/-- Numeric value of an ASCII digit character. -/
def digitVal (c : Char) : Nat := c.toNat - 48

/-- Tail of Python's decimal integer grammar `digit (["_"] digit)*`,
accumulating the value: after a digit, a single underscore may appear but
must be followed by another digit (so a trailing, leading-in-tail or
doubled underscore fails). -/
def pyDigitTail (acc : Nat) : List Char → Option Nat
  | [] => some acc
  | [c] => if c.isDigit then some (acc * 10 + digitVal c) else none
  | c :: c2 :: rest =>
    if c.isDigit then pyDigitTail (acc * 10 + digitVal c) (c2 :: rest)
    else if c = '_' && c2.isDigit then pyDigitTail (acc * 10 + digitVal c2) rest
    else none

/-- Unsigned decimal integer per Python's grammar: one digit followed by
`pyDigitTail`. -/
def pyParseUnsigned : List Char → Option Nat
  | [] => none
  | c :: rest => if c.isDigit then pyDigitTail (digitVal c) rest else none

/-- Models Python `int(s)` on ASCII input: strip whitespace, then an
optional single sign, then underscore-grouped digits; `none` models
`ValueError`. -/
def pyIntOfList (s : List Char) : Option Int :=
  match stripWhile pyIsSpace s with
  | [] => none
  | c :: rest =>
    if c = '+' then (pyParseUnsigned rest).map (fun n => (n : Int))
    else if c = '-' then (pyParseUnsigned rest).map (fun n => -(n : Int))
    else (pyParseUnsigned (c :: rest)).map (fun n => (n : Int))

/-- Value denoted by a plain digit string, most significant digit first. -/
def digitsToNat (s : List Char) : Nat :=
  s.foldl (fun a c => a * 10 + digitVal c) 0

/-- Fuel-indexed core of Python `s.replace(pat, repl)`: scan left to
right, replacing non-overlapping occurrences of `pat`. The fuel is an
upper bound on the number of characters still to scan. -/
def listReplaceFuel (pat repl : List Char) : Nat → List Char → List Char
  | _, [] => []
  | 0, s => s
  | fuel + 1, c :: rest =>
    if pat ≠ [] ∧ pat <+: (c :: rest) then
      repl ++ listReplaceFuel pat repl fuel ((c :: rest).drop pat.length)
    else
      c :: listReplaceFuel pat repl fuel rest

/-- Python `s.replace(pat, repl)` for non-empty `pat` (the only shape the
source uses): each scan step consumes at least one character, so
`s.length` fuel suffices. -/
def listReplace (pat repl s : List Char) : List Char :=
  listReplaceFuel pat repl s.length s

/-! The historical value data model. The Python classes `HistoricalValue`,
`UsernameValue` and `InviteValue` share the fields below; the dataclass
specializations add derived data, modelled by the `extra` type parameter
(`Unit` for plain and username values, the extracted hash for invites). -/

/-- A historical value: the common fields of `HistoricalValue` and its
dataclass specializations. -/
structure HValue (α : Type) where
  value : List Char
  date : Option Nat
  details : Option (List Char)
  is_strikethrough : Bool
  extra : α
deriving DecidableEq

/-- Sort key of `HistoricalCollection.__init__` and `active`:
`v.date if v.date else datetime.min`, with `datetime.min = 0`. -/
def dateKey {α : Type} (v : HValue α) : Nat := v.date.getD 0

/-- Stable descending insertion for `dateKey`: the new element is placed
before the first element whose key is no larger, so among equal keys
earlier elements stay first. -/
def insertDesc {α : Type} (x : HValue α) : List (HValue α) → List (HValue α)
  | [] => [x]
  | y :: ys => if dateKey y ≤ dateKey x then x :: y :: ys else y :: insertDesc x ys

/-- Stable sort, descending by `dateKey`: models
`sorted(values, key=lambda v: v.date if v.date else datetime.min, reverse=True)`
(Python's sort is stable, and `reverse=True` keeps equal keys in their
original order). -/
def sortDesc {α : Type} : List (HValue α) → List (HValue α)
  | [] => []
  | x :: xs => insertDesc x (sortDesc xs)

/-- First element with the maximal key, as computed by Python's
`max(l, key=k)`: a later element replaces the current one only when its
key is strictly greater. -/
def pyMaxBy {α : Type} (k : HValue α → Nat) : List (HValue α) → Option (HValue α)
  | [] => none
  | x :: xs =>
    match pyMaxBy k xs with
    | none => some x
    | some m => if k x < k m then some m else some x

/-- First element with the minimal key, as computed by Python's
`min(l, key=k)`. -/
def pyMinBy {α : Type} (k : HValue α → Nat) : List (HValue α) → Option (HValue α)
  | [] => none
  | x :: xs =>
    match pyMinBy k xs with
    | none => some x
    | some m => if k m < k x then some m else some x

/-! The historical collection and its queries. -/

/-- A `HistoricalCollection`: the stored list of values. -/
structure HistoricalCollection (α : Type) where
  values : List (HValue α)
deriving DecidableEq

/-- Models `HistoricalCollection.__init__`: sort descending by date, with
undated values keyed as `datetime.min`. -/
def HistoricalCollection.ofValues {α : Type} (l : List (HValue α)) :
    HistoricalCollection α :=
  ⟨sortDesc l⟩

/-- Models `HistoricalCollection.latest(allow_strikethrough)`. -/
def HistoricalCollection.latest {α : Type} (c : HistoricalCollection α)
    (allow_strikethrough : Bool) : Option (HValue α) :=
  if c.values.isEmpty then none
  else
    let candidates :=
      if allow_strikethrough then c.values
      else c.values.filter (fun v => !v.is_strikethrough)
    if candidates.isEmpty then none
    else
      let with_dates := candidates.filter (fun v => v.date.isSome)
      let without_dates := candidates.filter (fun v => v.date.isNone)
      if !with_dates.isEmpty then pyMaxBy dateKey with_dates
      else without_dates.head?

/-- Models `HistoricalCollection.oldest()`. -/
def HistoricalCollection.oldest {α : Type} (c : HistoricalCollection α) :
    Option (HValue α) :=
  if c.values.isEmpty then none
  else
    let with_dates := c.values.filter (fun v => v.date.isSome)
    let without_dates := c.values.filter (fun v => v.date.isNone)
    if !with_dates.isEmpty then pyMinBy dateKey with_dates
    else without_dates.getLast?

/-- Models `HistoricalCollection.active()`: non-strikethrough values,
re-sorted by the construction sort key. -/
def HistoricalCollection.active {α : Type} (c : HistoricalCollection α) :
    List (HValue α) :=
  sortDesc (c.values.filter (fun v => !v.is_strikethrough))

/-- Models `InviteCollection.get_hashes(allow_strikethrough)`; for invite
values `extra` holds the hash. -/
def get_hashes (c : HistoricalCollection (List Char))
    (allow_strikethrough : Bool) : List (List Char) :=
  (if allow_strikethrough then c.values else c.active).map (fun v => v.extra)

/-! Validated value constructors. -/

/-- Models `UsernameValue.__post_init__`: strip one leading `@`, then
validate against `^[a-zA-Z0-9_]\x7b5,32\x7d$`; `none` models
`InvalidUsernameError`. -/
def mkUsernameValue (value : List Char) (date : Option Nat)
    (details : Option (List Char)) (strike : Bool) : Option (HValue Unit) :=
  let v := if value.head? = some '@' then value.tail else value
  if reClassRangeMatch isUsernameChar 5 32 v then
    some ⟨v, date, details, strike, ()⟩
  else none

/-- Models the `with_at` property of `UsernameValue`. -/
def with_at (v : HValue Unit) : List Char := '@' :: v.value

/-- The literal `https://t.me/+`. -/
def httpsTmePlus : List Char :=
  ['h', 't', 't', 'p', 's', ':', '/', '/', 't', '.', 'm', 'e', '/', '+']

/-- The literal `http://t.me/+`. -/
def httpTmePlus : List Char :=
  ['h', 't', 't', 'p', ':', '/', '/', 't', '.', 'm', 'e', '/', '+']

/-- The literal `https://t.me/`. -/
def httpsTmeSlash : List Char :=
  ['h', 't', 't', 'p', 's', ':', '/', '/', 't', '.', 'm', 'e', '/']

/-- The literal `t.me/+`. -/
def tmePlusPattern : List Char := ['t', '.', 'm', 'e', '/', '+']

/-- Models `InviteValue.__post_init__`: detect the input shape by prefix,
derive the canonical URL (stored in `value`) and the hash (stored in
`extra`), then validate the hash against `^[a-zA-Z0-9_-]+$`; `none`
models `InvalidInviteError`. -/
def mkInviteValue (value : List Char) (date : Option Nat)
    (details : Option (List Char)) (strike : Bool) :
    Option (HValue (List Char)) :=
  let vh : List Char × List Char :=
    if httpsTmePlus <+: value then (value, listReplace httpsTmePlus [] value)
    else if httpTmePlus <+: value then (value, listReplace httpTmePlus [] value)
    else if value.head? = some '+' then (httpsTmeSlash ++ value, value.tail)
    else (httpsTmePlus ++ value, value)
  if reClassPlusMatch isInviteHashChar vh.2 then
    some ⟨vh.1, date, details, strike, vh.2⟩
  else none

/-- Models the `url` property of `InviteValue`. -/
def url (v : HValue (List Char)) : List Char := v.value

/-! The external parsed-document interface (spec section 6). The `mdml`
parser is out of scope; a document is modelled abstractly by the two
lookup tables behind `Document.get_value` and `Document.get_field`.
A `FieldValue` carries the fields the middleware reads: raw text, an
optional parsed date, optional details, the strikethrough flag and an
optional markdown link target. (`sub_items` is only read by the status
projection, which no claim touches, and is omitted.) -/

/-- One raw field value as emitted by the external parser. -/
structure FieldValue where
  value : List Char
  datetime_obj : Option Nat
  details : Option (List Char)
  is_strikethrough : Bool
  link_url : Option (List Char)
deriving DecidableEq

/-- A field: the ordered list of its raw values. -/
structure Field where
  values : List FieldValue
deriving DecidableEq

/-- An already-parsed document, as the two lookups the middleware uses. -/
structure Document where
  valueMap : List (List Char × FieldValue)
  fieldMap : List (List Char × Field)
deriving DecidableEq

/-- Models `Document.get_value(name)`. -/
def Document.get_value (d : Document) (name : List Char) : Option FieldValue :=
  (d.valueMap.find? (fun p => p.1 = name)).map (fun p => p.2)

/-- Models `Document.get_field(name)`. -/
def Document.get_field (d : Document) (name : List Char) : Option Field :=
  (d.fieldMap.find? (fun p => p.1 = name)).map (fun p => p.2)

/-- The field name `id`. -/
def keyId : List Char := ['i', 'd']

/-- The field name `type`. -/
def keyType : List Char := ['t', 'y', 'p', 'e']

/-- The field name `username`. -/
def keyUsername : List Char := ['u', 's', 'e', 'r', 'n', 'a', 'm', 'e']

/-- The field name `invite`. -/
def keyInvite : List Char := ['i', 'n', 'v', 'i', 't', 'e']

/-! The entity layer: `TelegramEntity`'s accessors over a document. -/

/-- Models `TelegramEntity.get_id`: absent field gives `ok none`; a
present value is stripped of backticks and whitespace and parsed with
`int`; a parse failure models `InvalidFieldError` (whose message carries
the original value text). -/
def get_id (d : Document) : Except (List Char) (Option Int) :=
  match d.get_value keyId with
  | none => Except.ok none
  | some v =>
    match pyIntOfList (stripTicksWs v.value) with
    | some n => Except.ok (some n)
    | none => Except.error v.value

/-- Error cases of `TelegramEntity.get_type`: `MissingFieldError` or
`InvalidTypeError` (carrying the normalized text). -/
inductive TypeErr where
  | missingField
  | invalidType (t : List Char)
deriving DecidableEq

/-- The closed set `VALID_TYPES`. -/
def VALID_TYPES : List (List Char) :=
  [['b', 'o', 't'], ['u', 's', 'e', 'r'], ['c', 'h', 'a', 'n', 'n', 'e', 'l'],
    ['g', 'r', 'o', 'u', 'p'], ['u', 'n', 'k', 'n', 'o', 'w', 'n']]

/-- Models `TelegramEntity.get_type`. -/
def get_type (d : Document) : Except TypeErr (List Char) :=
  match d.get_value keyType with
  | none => Except.error TypeErr.missingField
  | some v =>
    let entity_type := pyLower (stripTicksWs v.value)
    if VALID_TYPES.contains entity_type then Except.ok entity_type
    else Except.error (TypeErr.invalidType entity_type)

/-- Per-item username projection inside `TelegramEntity.get_usernames`:
strip formatting, skip items not starting with `@` (placeholders), then
attempt `UsernameValue` construction; `none` also covers the silently
discarded `InvalidUsernameError` case. -/
def projectUsername (fv : FieldValue) : Option (HValue Unit) :=
  let raw := stripTicksWs fv.value
  if raw.head? = some '@' then
    mkUsernameValue raw fv.datetime_obj fv.details fv.is_strikethrough
  else none

/-- Models `TelegramEntity.get_usernames`. -/
def get_usernames (d : Document) : HistoricalCollection Unit :=
  match d.get_field keyUsername with
  | none => HistoricalCollection.ofValues []
  | some field =>
    HistoricalCollection.ofValues (field.values.filterMap projectUsername)

/-- Per-item invite projection inside `TelegramEntity.get_invites`:
prefer a non-empty link target over the stripped raw text (Python
truthiness: empty strings behave like absent ones), skip items that are
not invite-shaped, then attempt `InviteValue` construction; `none` also
covers the silently discarded `InvalidInviteError` case. -/
def projectInvite (fv : FieldValue) : Option (HValue (List Char)) :=
  let link := fv.link_url.getD []
  let raw :=
    if !link.isEmpty then link
    else if !fv.value.isEmpty then stripTicksWs fv.value
    else []
  if raw.isEmpty then none
  else if tmePlusPattern <:+: raw ∨ raw.head? = some '+' then
    mkInviteValue raw fv.datetime_obj fv.details fv.is_strikethrough
  else none

/-- Models `TelegramEntity.get_invites`. -/
def get_invites (d : Document) : HistoricalCollection (List Char) :=
  match d.get_field keyInvite with
  | none => HistoricalCollection.ofValues []
  | some field =>
    HistoricalCollection.ofValues (field.values.filterMap projectInvite)

/-- The warnings `TelegramEntity.validate` can emit; the message strings
are abstracted to tagged values carrying the interpolated payload. -/
inductive Warning where
  | typeMissing
  | typeInvalid (t : List Char)
  | idInvalid (s : List Char)
  | noIdentifier
deriving DecidableEq

/-- Models `TelegramEntity.validate`: collect the type warning, the id
warning, and the no-identifier warning, in that order; exceptions from
`get_type`/`get_id` are converted to warnings, so the function is total
(Python: `validate` never raises). -/
def validate (d : Document) : List Warning :=
  let typeWarnings :=
    match get_type d with
    | Except.ok _ => []
    | Except.error TypeErr.missingField => [Warning.typeMissing]
    | Except.error (TypeErr.invalidType t) => [Warning.typeInvalid t]
  let idWarnings :=
    match get_id d with
    | Except.ok _ => []
    | Except.error s => [Warning.idInvalid s]
  let has_id := match get_id d with | Except.ok (some _) => true | _ => false
  let has_username := !(get_usernames d).values.isEmpty
  let has_invite := !(get_invites d).values.isEmpty
  typeWarnings ++ idWarnings ++
    (if !has_id && !has_username && !has_invite then [Warning.noIdentifier]
     else [])

/-- The resolved identifier of a document: `some n` exactly when `get_id`
succeeds with a value; both the absent-field and the invalid-value case
give `none`. -/
def resolvedId (d : Document) : Option Int :=
  match get_id d with
  | Except.ok (some n) => some n
  | _ => none

/-! Helper lemmas about the stable descending sort. -/

theorem insertDesc_perm {α : Type} (x : HValue α) (l : List (HValue α)) :
    List.Perm (insertDesc x l) (x :: l) := by
  induction l with
  | nil => exact List.Perm.refl _
  | cons y ys ih =>
    rw [insertDesc]
    split
    · exact List.Perm.refl _
    · exact (ih.cons y).trans (List.Perm.swap x y ys)

theorem sortDesc_perm {α : Type} (l : List (HValue α)) :
    List.Perm (sortDesc l) l := by
  induction l with
  | nil => exact List.Perm.refl _
  | cons x xs ih => exact (insertDesc_perm x (sortDesc xs)).trans (ih.cons x)

theorem mem_sortDesc {α : Type} (l : List (HValue α)) (a : HValue α) :
    a ∈ sortDesc l ↔ a ∈ l :=
  (sortDesc_perm l).mem_iff

theorem pairwise_insertDesc {α : Type} (x : HValue α) (l : List (HValue α))
    (h : List.Pairwise (fun a b => dateKey b ≤ dateKey a) l) :
    List.Pairwise (fun a b => dateKey b ≤ dateKey a) (insertDesc x l) := by
  induction l with
  | nil => simp [insertDesc]
  | cons y ys ih =>
    rcases List.pairwise_cons.mp h with ⟨hy, hys⟩
    rw [insertDesc]
    split
    case isTrue hk =>
      refine List.pairwise_cons.mpr ⟨?_, h⟩
      intro b hb
      rcases List.mem_cons.mp hb with rfl | hb
      · exact hk
      · exact le_trans (hy b hb) hk
    case isFalse hk =>
      refine List.pairwise_cons.mpr ⟨?_, ih hys⟩
      intro b hb
      have hb' : b = x ∨ b ∈ ys := by
        have := (insertDesc_perm x ys).mem_iff.mp hb
        simpa using this
      rcases hb' with rfl | hb'
      · exact le_of_not_le hk
      · exact hy b hb'

theorem pairwise_sortDesc {α : Type} (l : List (HValue α)) :
    List.Pairwise (fun a b => dateKey b ≤ dateKey a) (sortDesc l) := by
  induction l with
  | nil => simp [sortDesc]
  | cons x xs ih => exact pairwise_insertDesc x (sortDesc xs) ih

theorem filter_insertDesc {α : Type} (p : HValue α → Bool) (m : Nat)
    (hp : ∀ v, p v = true → dateKey v = m) (x : HValue α) (l : List (HValue α)) :
    (insertDesc x l).filter p = if p x then x :: l.filter p else l.filter p := by
  induction l with
  | nil => simp [insertDesc, List.filter_cons]
  | cons y ys ih =>
    rw [insertDesc]
    split
    case isTrue hk => rw [List.filter_cons, List.filter_cons]
    case isFalse hk =>
      rw [List.filter_cons]
      by_cases hx : p x = true
      · have hym : p y = false := by
          cases hpy : p y
          · rfl
          · exact absurd (le_of_eq ((hp y hpy).trans (hp x hx).symm)) hk
        rw [List.filter_cons, hym]
        simp only [Bool.false_eq_true, if_false, ih, hx, if_true]
      · have hx' : p x = false := by
          cases hpx : p x
          · rfl
          · exact absurd hpx hx
        rw [List.filter_cons, ih, hx']
        simp only [Bool.false_eq_true, if_false]

theorem filter_sortDesc {α : Type} (p : HValue α → Bool) (m : Nat)
    (hp : ∀ v, p v = true → dateKey v = m) (l : List (HValue α)) :
    (sortDesc l).filter p = l.filter p := by
  induction l with
  | nil => rfl
  | cons x xs ih =>
    rw [sortDesc, filter_insertDesc p m hp, List.filter_cons, ih]

/-! Helper lemmas about Python's first-maximum and first-minimum. -/

theorem pyMaxBy_eq_none {α : Type} (k : HValue α → Nat) (l : List (HValue α)) :
    pyMaxBy k l = none ↔ l = [] := by
  cases l with
  | nil => simp [pyMaxBy]
  | cons x xs =>
    rw [pyMaxBy]
    constructor
    · intro h
      exfalso
      cases hxs : pyMaxBy k xs <;> rw [hxs] at h
      · exact Option.noConfusion h
      · rename_i m
        by_cases hlt : k x < k m <;> simp [hlt] at h
    · intro h
      exact List.noConfusion h

theorem pyMaxBy_spec {α : Type} (k : HValue α → Nat) :
    ∀ (l : List (HValue α)) (m : HValue α), pyMaxBy k l = some m →
      m ∈ l ∧ (∀ x ∈ l, k x ≤ k m) ∧
        (l.filter (fun x => k x == k m)).head? = some m := by
  intro l
  induction l with
  | nil => intro m h; exact Option.noConfusion h
  | cons x xs ih =>
    intro m h
    rw [pyMaxBy] at h
    cases hxs : pyMaxBy k xs <;> rw [hxs] at h
    · have hnil : xs = [] := (pyMaxBy_eq_none k xs).mp hxs
      subst hnil
      cases h
      refine ⟨List.mem_cons_self x [], ?_, ?_⟩
      · intro y hy
        rcases List.mem_cons.mp hy with rfl | hy
        · exact le_refl _
        · exact absurd hy (List.not_mem_nil y)
      · simp [List.filter_cons]
    · rename_i m'
      rcases ih m' hxs with ⟨hmem, hle, hfirst⟩
      have h' : (if k x < k m' then some m' else some x) = some m := h
      by_cases hlt : k x < k m'
      · rw [if_pos hlt] at h'
        cases h'
        refine ⟨List.mem_cons_of_mem x hmem, ?_, ?_⟩
        · intro y hy
          rcases List.mem_cons.mp hy with rfl | hy
          · exact le_of_lt hlt
          · exact hle y hy
        · rw [List.filter_cons]
          have : (k x == k m) = false := by
            simp only [beq_eq_false_iff_ne, ne_eq]
            exact fun hEq => absurd (hEq ▸ hlt) (lt_irrefl _)
          rw [this]
          simpa using hfirst
      · rw [if_neg hlt] at h'
        cases h'
        refine ⟨List.mem_cons_self x xs, ?_, ?_⟩
        · intro y hy
          rcases List.mem_cons.mp hy with rfl | hy
          · exact le_refl _
          · exact le_trans (hle y hy) (le_of_not_lt hlt)
        · rw [List.filter_cons]
          simp

theorem pyMinBy_eq_none {α : Type} (k : HValue α → Nat) (l : List (HValue α)) :
    pyMinBy k l = none ↔ l = [] := by
  cases l with
  | nil => simp [pyMinBy]
  | cons x xs =>
    rw [pyMinBy]
    constructor
    · intro h
      exfalso
      cases hxs : pyMinBy k xs <;> rw [hxs] at h
      · exact Option.noConfusion h
      · rename_i m
        by_cases hlt : k m < k x <;> simp [hlt] at h
    · intro h
      exact List.noConfusion h

theorem pyMinBy_spec {α : Type} (k : HValue α → Nat) :
    ∀ (l : List (HValue α)) (m : HValue α), pyMinBy k l = some m →
      m ∈ l ∧ (∀ x ∈ l, k m ≤ k x) := by
  intro l
  induction l with
  | nil => intro m h; exact Option.noConfusion h
  | cons x xs ih =>
    intro m h
    rw [pyMinBy] at h
    cases hxs : pyMinBy k xs <;> rw [hxs] at h
    · cases h
      have hnil : xs = [] := (pyMinBy_eq_none k xs).mp hxs
      subst hnil
      refine ⟨List.mem_cons_self x [], ?_⟩
      intro y hy
      rcases List.mem_cons.mp hy with rfl | hy
      · exact le_refl _
      · exact absurd hy (List.not_mem_nil y)
    · rename_i m'
      rcases ih m' hxs with ⟨hmem, hle⟩
      have h' : (if k m' < k x then some m' else some x) = some m := h
      by_cases hlt : k m' < k x
      · rw [if_pos hlt] at h'
        cases h'
        refine ⟨List.mem_cons_of_mem x hmem, ?_⟩
        intro y hy
        rcases List.mem_cons.mp hy with rfl | hy
        · exact le_of_lt hlt
        · exact hle y hy
      · rw [if_neg hlt] at h'
        cases h'
        refine ⟨List.mem_cons_self x xs, ?_⟩
        intro y hy
        rcases List.mem_cons.mp hy with rfl | hy
        · exact le_refl _
        · exact le_trans (le_of_not_lt hlt) (hle y hy)

/-! Claim C1: construction order of a `HistoricalCollection`. -/

/-- C1 (amended): for every list of historical values in which no dated
entry carries the minimum representable timestamp (`datetime.min`,
modelled as date `0`), the constructed collection stores a permutation of
the input in which every dated entry precedes every undated entry, dated
entries appear in non-increasing date order, and undated entries keep
their original relative (document) order. Without that proviso the first
part fails, because a date equal to `datetime.min` gets the same sort key
as an absent date (see the counterexample). -/
theorem construction_sorts_dated_desc_undated_last (l : List (HValue Unit))
    (hd : ∀ v ∈ l, v.date ≠ some 0) :
    List.Perm (HistoricalCollection.ofValues l).values l
    ∧ List.Pairwise (fun a b => a.date.isNone = true → b.date.isNone = true)
        (HistoricalCollection.ofValues l).values
    ∧ List.Pairwise
        (fun a b => ∀ da db, a.date = some da → b.date = some db → db ≤ da)
        (HistoricalCollection.ofValues l).values
    ∧ (HistoricalCollection.ofValues l).values.filter (fun v => v.date.isNone)
        = l.filter (fun v => v.date.isNone) := by
  refine ⟨sortDesc_perm l, ?_, ?_, ?_⟩
  · refine (pairwise_sortDesc l).imp_of_mem ?_
    intro a b _ hb hk ha
    have hb' : b ∈ l := (mem_sortDesc l b).mp hb
    have ha0 : dateKey a = 0 := by
      cases hda : a.date
      · simp [dateKey, hda]
      · rw [hda] at ha; exact absurd ha (by simp)
    cases hdb : b.date with
    | none => simp
    | some d =>
      exfalso
      have hkb : dateKey b = d := by simp [dateKey, hdb]
      have : d = 0 := by omega
      exact hd b hb' (this ▸ hdb)
  · refine (pairwise_sortDesc l).imp ?_
    intro a b hk da db hda hdb
    have h1 : dateKey a = da := by simp [dateKey, hda]
    have h2 : dateKey b = db := by simp [dateKey, hdb]
    omega
  · exact filter_sortDesc _ 0 (fun v hv => by
      cases hdv : v.date
      · simp [dateKey, hdv]
      · rw [hdv] at hv; exact absurd hv (by simp)) l

/-- Input for the witness of C1's amended theorem. -/
def c1WitnessList : List (HValue Unit) :=
  [⟨['a'], none, none, false, ()⟩, ⟨['b'], some 15, none, false, ()⟩,
    ⟨['c'], some 20, none, false, ()⟩]

/-- Witness for C1: the amended theorem applied to a concrete list whose
dated entries have nonzero dates. -/
theorem construction_sorts_dated_desc_undated_last_witness :
    List.Perm (HistoricalCollection.ofValues c1WitnessList).values c1WitnessList
    ∧ List.Pairwise (fun a b => a.date.isNone = true → b.date.isNone = true)
        (HistoricalCollection.ofValues c1WitnessList).values
    ∧ List.Pairwise
        (fun a b => ∀ da db, a.date = some da → b.date = some db → db ≤ da)
        (HistoricalCollection.ofValues c1WitnessList).values
    ∧ (HistoricalCollection.ofValues c1WitnessList).values.filter
        (fun v => v.date.isNone)
        = c1WitnessList.filter (fun v => v.date.isNone) :=
  construction_sorts_dated_desc_undated_last c1WitnessList (by decide)

/-- An undated value, inserted first. -/
def c1Undated : HValue Unit := ⟨['a'], none, none, false, ()⟩

/-- A value dated `datetime.min` (date `0`), inserted second. -/
def c1DatedMin : HValue Unit := ⟨['b'], some 0, none, false, ()⟩

/-- Counterexample to C1 as stated: a value dated `datetime.min` receives
the same sort key as an undated value, so the stable sort leaves the
undated value (inserted first) in front of the dated one — a dated entry
does not precede an undated entry in the stored order. -/
theorem construction_order_counterexample :
    (HistoricalCollection.ofValues [c1Undated, c1DatedMin]).values
        = [c1Undated, c1DatedMin]
    ∧ c1Undated.date = none
    ∧ c1DatedMin.date = some 0
    ∧ ¬ List.Pairwise (fun a b => a.date.isNone = true → b.date.isNone = true)
        (HistoricalCollection.ofValues [c1Undated, c1DatedMin]).values := by
  refine ⟨by decide, rfl, rfl, ?_⟩
  intro h
  have heq : (HistoricalCollection.ofValues [c1Undated, c1DatedMin]).values
      = [c1Undated, c1DatedMin] := by decide
  rw [heq] at h
  rcases List.pairwise_cons.mp h with ⟨h1, _⟩
  have := h1 c1DatedMin (by simp) (by rfl)
  simp [c1DatedMin] at this

/-! Claim C2: `latest` on collections whose values are all strikethrough. -/

/-- C2: on a collection whose values are all strikethrough,
`latest(allow_strikethrough=False)` returns nothing, and
`latest(allow_strikethrough=True)` returns a stored entry carrying the
maximum date whenever at least one entry is dated. -/
theorem latest_all_strikethrough (c : HistoricalCollection Unit)
    (hs : ∀ v ∈ c.values, v.is_strikethrough = true) :
    c.latest false = none
    ∧ ((∃ v ∈ c.values, v.date.isSome = true) →
        ∃ w d, c.latest true = some w ∧ w ∈ c.values ∧ w.date = some d ∧
          ∀ v ∈ c.values, ∀ dv, v.date = some dv → dv ≤ d) := by
  constructor
  · rw [HistoricalCollection.latest]
    by_cases hemp : c.values.isEmpty
    · rw [if_pos hemp]
    · rw [if_neg hemp]
      have hcand : c.values.filter (fun v => !v.is_strikethrough) = [] := by
        rw [List.filter_eq_nil_iff]
        intro v hv
        simp [hs v hv]
      simp only [Bool.false_eq_true, if_false, hcand, List.isEmpty_nil, if_pos]
  · intro ⟨v, hv, hvd⟩
    have hne : c.values ≠ [] := by
      intro h; rw [h] at hv; exact absurd hv (List.not_mem_nil v)
    have hemp : c.values.isEmpty = false := by
      cases hval : c.values
      · exact absurd hval hne
      · rfl
    have hwd : v ∈ c.values.filter (fun v => v.date.isSome) :=
      List.mem_filter.mpr ⟨hv, hvd⟩
    have hwdne : c.values.filter (fun v => v.date.isSome) ≠ [] := by
      intro h; rw [h] at hwd; exact absurd hwd (List.not_mem_nil v)
    have hwdne' : (c.values.filter (fun v => v.date.isSome)).isEmpty = false := by
      cases hval : c.values.filter (fun v => v.date.isSome)
      · exact absurd hval hwdne
      · rfl
    have hlat : c.latest true
        = pyMaxBy dateKey (c.values.filter (fun v => v.date.isSome)) := by
      simp [HistoricalCollection.latest, hemp, hwdne']
    rw [hlat]
    have hsome : (pyMaxBy dateKey (c.values.filter (fun v => v.date.isSome))).isSome
        = true := by
      cases hm : pyMaxBy dateKey (c.values.filter (fun v => v.date.isSome))
      · exact absurd ((pyMaxBy_eq_none _ _).mp hm) hwdne
      · rfl
    rcases Option.isSome_iff_exists.mp hsome with ⟨w, hw⟩
    rcases pyMaxBy_spec dateKey _ w hw with ⟨hwmem, hwle, _⟩
    have hwmem' := List.mem_filter.mp hwmem
    rcases Option.isSome_iff_exists.mp hwmem'.2 with ⟨d, hd⟩
    refine ⟨w, d, hw, hwmem'.1, hd, ?_⟩
    intro u hu du hdu
    have humem : u ∈ c.values.filter (fun v => v.date.isSome) :=
      List.mem_filter.mpr ⟨hu, by simp [hdu]⟩
    have := hwle u humem
    have h1 : dateKey u = du := by simp [dateKey, hdu]
    have h2 : dateKey w = d := by simp [dateKey, hd]
    omega

/-- Input for the witness of C2: both entries strikethrough, one dated. -/
def c2WitnessCol : HistoricalCollection Unit :=
  HistoricalCollection.ofValues
    [⟨['x'], some 3, none, true, ()⟩, ⟨['y'], some 7, none, true, ()⟩]

/-- Witness for C2 at a concrete all-strikethrough collection. -/
theorem latest_all_strikethrough_witness :
    c2WitnessCol.latest false = none
    ∧ ((∃ v ∈ c2WitnessCol.values, v.date.isSome = true) →
        ∃ w d, c2WitnessCol.latest true = some w ∧ w ∈ c2WitnessCol.values ∧
          w.date = some d ∧
          ∀ v ∈ c2WitnessCol.values, ∀ dv, v.date = some dv → dv ≤ d) :=
  latest_all_strikethrough c2WitnessCol (by decide)

/-! Claim C6: `oldest` considers every value, strikethrough included. -/

/-- Rewrites only the strikethrough flag of a value, leaving the payload,
date, details and derived data unchanged. -/
def mapStrike {α : Type} (g : Bool → Bool) (v : HValue α) : HValue α :=
  ⟨v.value, v.date, v.details, g v.is_strikethrough, v.extra⟩

theorem pyMinBy_mapStrike {α : Type} (g : Bool → Bool) :
    ∀ l : List (HValue α),
      pyMinBy dateKey (l.map (mapStrike g)) = (pyMinBy dateKey l).map (mapStrike g) := by
  intro l
  induction l with
  | nil => rfl
  | cons x xs ih =>
    rw [List.map_cons, pyMinBy, pyMinBy, ih]
    cases pyMinBy dateKey xs with
    | none => rfl
    | some m =>
      show (if dateKey (mapStrike g m) < dateKey (mapStrike g x)
            then some (mapStrike g m) else some (mapStrike g x))
          = Option.map (mapStrike g) (if dateKey m < dateKey x then some m else some x)
      have hkm : dateKey (mapStrike g m) = dateKey m := rfl
      have hkx : dateKey (mapStrike g x) = dateKey x := rfl
      rw [hkm, hkx]
      by_cases hlt : dateKey m < dateKey x
      · rw [if_pos hlt, if_pos hlt]; rfl
      · rw [if_neg hlt, if_neg hlt]; rfl

/-- C6: on every non-empty collection, `oldest` returns a stored value
carrying the minimum date over all values (strikethrough included) when
any value is dated; when no value is dated it returns the last value in
stored order; and it is invariant under arbitrary rewrites of the
strikethrough flags, i.e. it never filters on that flag — asymmetric with
`latest`'s default. -/
theorem oldest_considers_all_values (c : HistoricalCollection Unit)
    (hne : c.values ≠ []) :
    ((∃ v ∈ c.values, v.date.isSome = true) →
        ∃ w d, c.oldest = some w ∧ w ∈ c.values ∧ w.date = some d ∧
          ∀ v ∈ c.values, ∀ dv, v.date = some dv → d ≤ dv)
    ∧ ((∀ v ∈ c.values, v.date = none) → c.oldest = c.values.getLast?)
    ∧ (∀ g : Bool → Bool,
        HistoricalCollection.oldest ⟨c.values.map (mapStrike g)⟩
          = c.oldest.map (mapStrike g)) := by
  have hemp : c.values.isEmpty = false := by
    cases hval : c.values
    · exact absurd hval hne
    · rfl
  refine ⟨?_, ?_, ?_⟩
  · intro ⟨v, hv, hvd⟩
    have hwd : v ∈ c.values.filter (fun v => v.date.isSome) :=
      List.mem_filter.mpr ⟨hv, hvd⟩
    have hwdne : c.values.filter (fun v => v.date.isSome) ≠ [] := by
      intro h; rw [h] at hwd; exact absurd hwd (List.not_mem_nil v)
    have hwdne' : (c.values.filter (fun v => v.date.isSome)).isEmpty = false := by
      cases hval : c.values.filter (fun v => v.date.isSome)
      · exact absurd hval hwdne
      · rfl
    have hold : c.oldest = pyMinBy dateKey (c.values.filter (fun v => v.date.isSome)) := by
      simp [HistoricalCollection.oldest, hemp, hwdne']
    rw [hold]
    have hsome : (pyMinBy dateKey (c.values.filter (fun v => v.date.isSome))).isSome
        = true := by
      cases hm : pyMinBy dateKey (c.values.filter (fun v => v.date.isSome))
      · exact absurd ((pyMinBy_eq_none _ _).mp hm) hwdne
      · rfl
    rcases Option.isSome_iff_exists.mp hsome with ⟨w, hw⟩
    rcases pyMinBy_spec dateKey _ w hw with ⟨hwmem, hwle⟩
    have hwmem' := List.mem_filter.mp hwmem
    rcases Option.isSome_iff_exists.mp hwmem'.2 with ⟨d, hd⟩
    refine ⟨w, d, hw, hwmem'.1, hd, ?_⟩
    intro u hu du hdu
    have humem : u ∈ c.values.filter (fun v => v.date.isSome) :=
      List.mem_filter.mpr ⟨hu, by simp [hdu]⟩
    have := hwle u humem
    have h1 : dateKey u = du := by simp [dateKey, hdu]
    have h2 : dateKey w = d := by simp [dateKey, hd]
    omega
  · intro hall
    have hwdnil : c.values.filter (fun v => v.date.isSome) = [] := by
      rw [List.filter_eq_nil_iff]
      intro v hv
      simp [hall v hv]
    have hwod : c.values.filter (fun v => v.date.isNone) = c.values := by
      rw [List.filter_eq_self]
      intro v hv
      simp [hall v hv]
    simp [HistoricalCollection.oldest, hemp, hwdnil, hwod]
  · intro g
    have hm1 : ∀ l : List (HValue Unit), (l.map (mapStrike g)).isEmpty = l.isEmpty := by
      intro l; cases l <;> rfl
    have hm2 : (c.values.map (mapStrike g)).filter (fun v => v.date.isSome)
        = (c.values.filter (fun v => v.date.isSome)).map (mapStrike g) := by
      rw [List.filter_map]; rfl
    have hm3 : (c.values.map (mapStrike g)).filter (fun v => v.date.isNone)
        = (c.values.filter (fun v => v.date.isNone)).map (mapStrike g) := by
      rw [List.filter_map]; rfl
    show HistoricalCollection.oldest ⟨c.values.map (mapStrike g)⟩ = _
    rw [HistoricalCollection.oldest, HistoricalCollection.oldest]
    simp only [hm1, hm2, hm3, hemp, Bool.false_eq_true, if_false]
    rw [pyMinBy_mapStrike, List.getLast?_map]
    by_cases hwd : (c.values.filter (fun v => v.date.isSome)).isEmpty
    · simp [hwd]
    · have hwd' : (c.values.filter (fun v => v.date.isSome)).isEmpty = false := by
        cases h : (c.values.filter (fun v => v.date.isSome)).isEmpty
        · rfl
        · exact absurd h hwd
      simp [hwd']

/-- Input for the witness of C6: a strikethrough dated value and two
undated values. -/
def c6WitnessCol : HistoricalCollection Unit :=
  HistoricalCollection.ofValues
    [⟨['p'], some 9, none, true, ()⟩, ⟨['q'], some 4, none, false, ()⟩,
      ⟨['r'], none, none, false, ()⟩]

/-- Witness for C6 at a concrete non-empty collection. -/
theorem oldest_considers_all_values_witness :
    ((∃ v ∈ c6WitnessCol.values, v.date.isSome = true) →
        ∃ w d, c6WitnessCol.oldest = some w ∧ w ∈ c6WitnessCol.values ∧
          w.date = some d ∧
          ∀ v ∈ c6WitnessCol.values, ∀ dv, v.date = some dv → d ≤ dv)
    ∧ ((∀ v ∈ c6WitnessCol.values, v.date = none) →
        c6WitnessCol.oldest = c6WitnessCol.values.getLast?)
    ∧ (∀ g : Bool → Bool,
        HistoricalCollection.oldest ⟨c6WitnessCol.values.map (mapStrike g)⟩
          = c6WitnessCol.oldest.map (mapStrike g)) :=
  oldest_considers_all_values c6WitnessCol (by decide)

/-! Claim C9: the equal-date tie-break of `latest`. -/

/-- Membership in the candidate set of `latest`: with
`allow_strikethrough` every value qualifies, otherwise only
non-strikethrough values do. -/
def candOk (allow : Bool) (v : HValue Unit) : Bool :=
  allow || !v.is_strikethrough

/-- Values that are candidates and carry exactly the date `m`. -/
def tiedAt (allow : Bool) (m : Nat) (v : HValue Unit) : Bool :=
  candOk allow v && decide (v.date = some m)

/-- C9: when the candidate set of a constructed collection contains two
or more dated values sharing the maximum candidate date `m`, `latest`
returns the first tied candidate in stored order, which equals the first
tied candidate in the original insertion (document) order — Python's
`max` keeps the first maximal element, and the construction sort is
stable on equal keys. -/
theorem latest_tie_break (l : List (HValue Unit)) (allow : Bool) (m : Nat)
    (hmax : ∀ v ∈ l, candOk allow v = true → ∀ d, v.date = some d → d ≤ m)
    (htwo : 2 ≤ (l.filter (tiedAt allow m)).length) :
    (HistoricalCollection.ofValues l).latest allow
      = ((HistoricalCollection.ofValues l).values.filter (tiedAt allow m)).head?
    ∧ (HistoricalCollection.ofValues l).latest allow
      = (l.filter (tiedAt allow m)).head? := by
  have htied_key : ∀ v : HValue Unit, tiedAt allow m v = true → dateKey v = m := by
    intro v hv
    have hv' : candOk allow v = true ∧ v.date = some m := by
      simpa [tiedAt] using hv
    simp [dateKey, hv'.2]
  have hstable : (sortDesc l).filter (tiedAt allow m) = l.filter (tiedAt allow m) :=
    filter_sortDesc _ m htied_key l
  have hlnil : l.filter (tiedAt allow m) ≠ [] := by
    intro h
    rw [h] at htwo
    simp at htwo
  rcases List.exists_mem_of_ne_nil _ hlnil with ⟨t, ht⟩
  have ht' : t ∈ (sortDesc l).filter (tiedAt allow m) := hstable ▸ ht
  rcases List.mem_filter.mp ht' with ⟨htv, htp⟩
  have htp' : candOk allow t = true ∧ t.date = some m := by
    simpa [tiedAt] using htp
  rcases htp' with ⟨htc, htdate⟩
  have hemp : (sortDesc l).isEmpty = false := by
    cases hval : sortDesc l
    · rw [hval] at htv; exact absurd htv (List.not_mem_nil t)
    · rfl
  have hcand : (if allow then sortDesc l
        else (sortDesc l).filter (fun v => !v.is_strikethrough))
      = (sortDesc l).filter (candOk allow) := by
    cases allow
    · rfl
    · have hc : candOk true = fun _ : HValue Unit => true := by
        funext v; simp [candOk]
      rw [if_pos rfl, hc]
      simp
  have htcand : t ∈ (sortDesc l).filter (candOk allow) :=
    List.mem_filter.mpr ⟨htv, htc⟩
  have hce : ((sortDesc l).filter (candOk allow)).isEmpty = false := by
    cases hval : (sortDesc l).filter (candOk allow)
    · rw [hval] at htcand; exact absurd htcand (List.not_mem_nil t)
    · rfl
  have htwd : t ∈ ((sortDesc l).filter (candOk allow)).filter
      (fun v => v.date.isSome) :=
    List.mem_filter.mpr ⟨htcand, by simp [htdate]⟩
  have hwde : (((sortDesc l).filter (candOk allow)).filter
      (fun v => v.date.isSome)).isEmpty = false := by
    cases hval : ((sortDesc l).filter (candOk allow)).filter
        (fun v => v.date.isSome)
    · rw [hval] at htwd; exact absurd htwd (List.not_mem_nil t)
    · rfl
  have hlat : (HistoricalCollection.ofValues l).latest allow
      = pyMaxBy dateKey (((sortDesc l).filter (candOk allow)).filter
          (fun v => v.date.isSome)) := by
    show HistoricalCollection.latest ⟨sortDesc l⟩ allow = _
    rw [HistoricalCollection.latest]
    simp only [hemp, Bool.false_eq_true, if_false, hcand, hce, hwde,
      Bool.not_false, if_true]
  have hwdne : ((sortDesc l).filter (candOk allow)).filter
      (fun v => v.date.isSome) ≠ [] := by
    intro h; rw [h] at htwd; exact absurd htwd (List.not_mem_nil t)
  have hsome : (pyMaxBy dateKey (((sortDesc l).filter (candOk allow)).filter
      (fun v => v.date.isSome))).isSome = true := by
    cases hm : pyMaxBy dateKey (((sortDesc l).filter (candOk allow)).filter
        (fun v => v.date.isSome))
    · exact absurd ((pyMaxBy_eq_none _ _).mp hm) hwdne
    · rfl
  rcases Option.isSome_iff_exists.mp hsome with ⟨w, hw⟩
  rcases pyMaxBy_spec dateKey _ w hw with ⟨hwmem, hwle, hwfirst⟩
  have hwm : dateKey w = m := by
    rcases List.mem_filter.mp hwmem with ⟨hwc, hwdok⟩
    rcases List.mem_filter.mp hwc with ⟨hwv, hwcand⟩
    rcases Option.isSome_iff_exists.mp hwdok with ⟨dw, hdw⟩
    have hle1 : dw ≤ m :=
      hmax w ((mem_sortDesc l w).mp hwv) hwcand dw hdw
    have hle2 : dateKey t ≤ dateKey w := hwle t htwd
    have h1 : dateKey w = dw := by simp [dateKey, hdw]
    have h2 : dateKey t = m := by simp [dateKey, htdate]
    omega
  have hfe : (((sortDesc l).filter (candOk allow)).filter
        (fun v => v.date.isSome)).filter (fun x => dateKey x == dateKey w)
      = (sortDesc l).filter (tiedAt allow m) := by
    rw [List.filter_filter, List.filter_filter]
    refine List.filter_congr ?_
    intro a _
    rw [hwm]
    cases hda : a.date with
    | none => simp [tiedAt, dateKey, hda]
    | some da =>
      simp only [tiedAt, dateKey, hda, Option.getD_some, Option.isSome_some,
        Bool.and_true, Bool.and_comm]
      by_cases hdm : da = m <;> simp [hdm]
  refine ⟨?_, ?_⟩
  · rw [hlat, hw]
    show some w = (List.filter (tiedAt allow m) (sortDesc l)).head?
    rw [← hfe]
    exact hwfirst.symm
  · rw [hlat, hw, ← hstable, ← hfe]
    exact hwfirst.symm

/-- Input for the witness of C9: two non-strikethrough values tied at
date `5` (inserted as `t1` then `t2`), plus an older value. -/
def c9WitnessList : List (HValue Unit) :=
  [⟨['t', '1'], some 5, none, false, ()⟩, ⟨['t', '2'], some 5, none, false, ()⟩,
    ⟨['o'], some 2, none, false, ()⟩]

/-- Witness for C9 at a concrete tie: two candidates share the maximum
date `5`. -/
theorem latest_tie_break_witness :
    (HistoricalCollection.ofValues c9WitnessList).latest false
      = ((HistoricalCollection.ofValues c9WitnessList).values.filter
          (tiedAt false 5)).head?
    ∧ (HistoricalCollection.ofValues c9WitnessList).latest false
      = (c9WitnessList.filter (tiedAt false 5)).head? :=
  latest_tie_break c9WitnessList false 5
    (by
      intro v hv _ d hd
      fin_cases hv <;> (simp_all; try omega))
    (by decide)

/-! Claim C10: `InviteCollection.get_hashes` and the strikethrough
filter. -/

/-- C10 (amended): `get_hashes` with `allow_strikethrough=True` maps the
hash over all stored values in stored order; with the default
`allow_strikethrough=False` it maps the hash over `active()`, i.e. over
exactly the non-strikethrough values re-sorted by the construction key
(non-increasing `dateKey`); and provided no non-strikethrough value is
dated `datetime.min` (date `0`), every dated entry of that active order
precedes every undated one. Without the proviso the dated-before-undated
part fails (see the counterexample). -/
theorem get_hashes_active_order (c : HistoricalCollection (List Char))
    (hd : ∀ v ∈ c.values, v.is_strikethrough = false → v.date ≠ some 0) :
    get_hashes c true = c.values.map (fun v => v.extra)
    ∧ get_hashes c false = c.active.map (fun v => v.extra)
    ∧ List.Perm c.active (c.values.filter (fun v => !v.is_strikethrough))
    ∧ (∀ v ∈ c.active, v.is_strikethrough = false)
    ∧ List.Pairwise (fun a b => dateKey b ≤ dateKey a) c.active
    ∧ List.Pairwise (fun a b => a.date.isNone = true → b.date.isNone = true)
        c.active := by
  refine ⟨rfl, rfl, sortDesc_perm _, ?_, pairwise_sortDesc _, ?_⟩
  · intro v hv
    have hv' : v ∈ c.values.filter (fun v => !v.is_strikethrough) :=
      (mem_sortDesc _ v).mp hv
    rcases List.mem_filter.mp hv' with ⟨_, hs⟩
    cases h : v.is_strikethrough
    · rfl
    · rw [h] at hs; exact absurd hs (by simp)
  · refine (pairwise_sortDesc _).imp_of_mem ?_
    intro a b _ hb hk ha
    have hb' : b ∈ c.values.filter (fun v => !v.is_strikethrough) :=
      (mem_sortDesc _ b).mp hb
    rcases List.mem_filter.mp hb' with ⟨hbv, hbs⟩
    have hbs' : b.is_strikethrough = false := by
      cases h : b.is_strikethrough
      · rfl
      · rw [h] at hbs; exact absurd hbs (by simp)
    have ha0 : dateKey a = 0 := by
      cases hda : a.date
      · simp [dateKey, hda]
      · rw [hda] at ha; exact absurd ha (by simp)
    cases hdb : b.date with
    | none => simp
    | some d =>
      exfalso
      have hkb : dateKey b = d := by simp [dateKey, hdb]
      have hd0 : d = 0 := by omega
      exact hd b hbv hbs' (hd0 ▸ hdb)

/-- Input for the witness of C10: one strikethrough hash and two active
ones, none dated `datetime.min`. -/
def c10WitnessCol : HistoricalCollection (List Char) :=
  HistoricalCollection.ofValues
    [⟨['u'], none, none, false, ['h', '1']⟩,
      ⟨['v'], some 6, none, true, ['h', '2']⟩,
      ⟨['w'], some 4, none, false, ['h', '3']⟩]

/-- Witness for C10 at a concrete invite collection. -/
theorem get_hashes_active_order_witness :
    get_hashes c10WitnessCol true = c10WitnessCol.values.map (fun v => v.extra)
    ∧ get_hashes c10WitnessCol false = c10WitnessCol.active.map (fun v => v.extra)
    ∧ List.Perm c10WitnessCol.active
        (c10WitnessCol.values.filter (fun v => !v.is_strikethrough))
    ∧ (∀ v ∈ c10WitnessCol.active, v.is_strikethrough = false)
    ∧ List.Pairwise (fun a b => dateKey b ≤ dateKey a) c10WitnessCol.active
    ∧ List.Pairwise (fun a b => a.date.isNone = true → b.date.isNone = true)
        c10WitnessCol.active :=
  get_hashes_active_order c10WitnessCol (by decide)

/-- An undated non-strikethrough invite value, inserted first. -/
def c10Undated : HValue (List Char) := ⟨['a'], none, none, false, ['h', 'a']⟩

/-- An invite value dated `datetime.min` (date `0`), inserted second. -/
def c10DatedMin : HValue (List Char) := ⟨['b'], some 0, none, false, ['h', 'b']⟩

/-- Counterexample to C10 as stated: with a non-strikethrough value dated
`datetime.min`, the active-query order produced by
`get_hashes(allow_strikethrough=False)` lists the undated value's hash
before the dated value's hash, so the claimed "dated descending, undated
last" order does not hold. -/
theorem get_hashes_counterexample :
    get_hashes (HistoricalCollection.ofValues [c10Undated, c10DatedMin]) false
      = [['h', 'a'], ['h', 'b']]
    ∧ c10Undated.date = none
    ∧ c10DatedMin.date = some 0
    ∧ ¬ List.Pairwise (fun a b => a.date.isNone = true → b.date.isNone = true)
        (HistoricalCollection.ofValues [c10Undated, c10DatedMin]).active := by
  refine ⟨by decide, rfl, rfl, ?_⟩
  intro h
  have heq : (HistoricalCollection.ofValues [c10Undated, c10DatedMin]).active
      = [c10Undated, c10DatedMin] := by decide
  rw [heq] at h
  rcases List.pairwise_cons.mp h with ⟨h1, _⟩
  have := h1 c10DatedMin (by simp) (by rfl)
  simp [c10DatedMin] at this

/-! Claim C3: confluence of invite canonicalization. -/

theorem reClassPlusMatch_chars (p : Char → Bool) (s : List Char)
    (hs : reClassPlusMatch p s = true) : ∀ c ∈ s, p c = true ∨ c = '\n' := by
  intro c hc
  have hs' : (¬s = [] ∧ ∀ x ∈ s, p x = true)
      ∨ (s.getLast? = some '\n' ∧ ¬s.dropLast = []) ∧ ∀ x ∈ s.dropLast, p x = true := by
    simpa [reClassPlusMatch, Bool.or_eq_true, Bool.and_eq_true] using hs
  rcases hs' with ⟨_, hall⟩ | ⟨⟨hlast, _⟩, hall⟩
  · exact Or.inl (hall c hc)
  · have hne : s ≠ [] := by
      intro hn; rw [hn] at hlast; exact Option.noConfusion hlast
    have hsplit : s.dropLast ++ [s.getLast hne] = s := List.dropLast_append_getLast hne
    have hglast : s.getLast hne = '\n' := by
      have := List.getLast?_eq_getLast s hne
      rw [this] at hlast
      exact Option.some.inj hlast
    rw [← hsplit] at hc
    rcases List.mem_append.mp hc with hc | hc
    · exact Or.inl (hall c hc)
    · rcases List.mem_singleton.mp hc with rfl
      exact Or.inr hglast

theorem listReplaceFuel_no_occurrence (pat repl : List Char) (c : Char)
    (hc : c ∈ pat) : ∀ (fuel : Nat) (s : List Char), c ∉ s →
      listReplaceFuel pat repl fuel s = s := by
  intro fuel
  induction fuel with
  | zero =>
    intro s _
    cases s <;> rfl
  | succ n ih =>
    intro s hs
    cases s with
    | nil => rfl
    | cons a rest =>
      rw [listReplaceFuel]
      have hcon : ¬(pat ≠ [] ∧ pat <+: (a :: rest)) := by
        rintro ⟨-, hp⟩
        exact hs (hp.subset hc)
      rw [if_neg hcon]
      have : c ∉ rest := fun hr => hs (List.mem_cons_of_mem a hr)
      rw [ih rest this]

theorem listReplace_strip_prefixed (p : Char) (ps h : List Char) (c : Char)
    (hc : c ∈ p :: ps) (hh : c ∉ h) :
    listReplace (p :: ps) [] ((p :: ps) ++ h) = h := by
  rw [listReplace]
  show listReplaceFuel (p :: ps) [] ((ps ++ h).length + 1) (p :: (ps ++ h)) = h
  rw [listReplaceFuel]
  rw [if_pos ⟨List.cons_ne_nil p ps, List.prefix_append (p :: ps) h⟩]
  show listReplaceFuel (p :: ps) [] (ps ++ h).length ((ps ++ h).drop ps.length) = h
  rw [List.drop_left ps h]
  exact listReplaceFuel_no_occurrence (p :: ps) [] c hc (ps ++ h).length h hh

/-- C3: for every hash accepted by the invite-hash validation, the three
accepted input shapes — the canonical full URL `https://t.me/+hash`, the
bare `+hash`, and the raw hash — construct the identical invite value,
whose `url` is the canonical domain form and whose stored hash is the
input hash, regardless of the date/details/strikethrough metadata. -/
theorem invite_canonicalization_confluent (h : List Char)
    (dt : Option Nat) (det : Option (List Char)) (st : Bool)
    (hv : reClassPlusMatch isInviteHashChar h = true) :
    mkInviteValue (httpsTmePlus ++ h) dt det st
        = some ⟨httpsTmePlus ++ h, dt, det, st, h⟩
    ∧ mkInviteValue ('+' :: h) dt det st
        = some ⟨httpsTmePlus ++ h, dt, det, st, h⟩
    ∧ mkInviteValue h dt det st
        = some ⟨httpsTmePlus ++ h, dt, det, st, h⟩
    ∧ url ⟨httpsTmePlus ++ h, dt, det, st, h⟩ = httpsTmePlus ++ h := by
  have hchars := reClassPlusMatch_chars isInviteHashChar h hv
  have hcolon : ':' ∉ h := by
    intro hm
    rcases hchars ':' hm with hp | hnl
    · exact absurd hp (by decide)
    · exact absurd hnl (by decide)
  have hplus : '+' ∉ h := by
    intro hm
    rcases hchars '+' hm with hp | hnl
    · exact absurd hp (by decide)
    · exact absurd hnl (by decide)
  have hnp1 : ¬(httpsTmePlus <+: h) := by
    intro hp
    exact hcolon (hp.subset (by decide))
  have hnp2 : ¬(httpTmePlus <+: h) := by
    intro hp
    exact hcolon (hp.subset (by decide))
  have hnp1p : ¬(httpsTmePlus <+: ('+' :: h)) := by
    intro hp
    have : ':' ∈ '+' :: h := hp.subset (by decide)
    rcases List.mem_cons.mp this with hq | hq
    · exact absurd hq (by decide)
    · exact hcolon hq
  have hnp2p : ¬(httpTmePlus <+: ('+' :: h)) := by
    intro hp
    have : ':' ∈ '+' :: h := hp.subset (by decide)
    rcases List.mem_cons.mp this with hq | hq
    · exact absurd hq (by decide)
    · exact hcolon hq
  have hhead : ¬(h.head? = some '+') := by
    intro hp
    exact hplus (List.mem_of_mem_head? (by rw [hp]; exact rfl))
  have hrepl : listReplace httpsTmePlus [] (httpsTmePlus ++ h) = h :=
    listReplace_strip_prefixed 'h'
      ['t', 't', 'p', 's', ':', '/', '/', 't', '.', 'm', 'e', '/', '+'] h ':'
      (by decide) hcolon
  refine ⟨?_, ?_, ?_, rfl⟩
  · rw [mkInviteValue]
    rw [if_pos (List.prefix_append httpsTmePlus h), hrepl, if_pos hv]
  · rw [mkInviteValue]
    rw [if_neg hnp1p, if_neg hnp2p,
      if_pos (show ('+' :: h).head? = some '+' from rfl)]
    show (if reClassPlusMatch isInviteHashChar h = true then
          some (⟨httpsTmeSlash ++ ('+' :: h), dt, det, st, h⟩ : HValue (List Char))
        else none)
      = some ⟨httpsTmePlus ++ h, dt, det, st, h⟩
    rw [if_pos hv]
    have hval : httpsTmeSlash ++ ('+' :: h) = httpsTmePlus ++ h := by
      rw [List.append_cons]
      rfl
    rw [hval]
  · rw [mkInviteValue]
    rw [if_neg hnp1, if_neg hnp2, if_neg hhead, if_pos hv]

/-- Hash used by the witness of C3. -/
def c3WitnessHash : List Char := ['A', 'b', 'c', '-', '_', '9']

/-- Witness for C3 at a concrete valid hash. -/
theorem invite_canonicalization_confluent_witness :
    mkInviteValue (httpsTmePlus ++ c3WitnessHash) none none false
        = some ⟨httpsTmePlus ++ c3WitnessHash, none, none, false, c3WitnessHash⟩
    ∧ mkInviteValue ('+' :: c3WitnessHash) none none false
        = some ⟨httpsTmePlus ++ c3WitnessHash, none, none, false, c3WitnessHash⟩
    ∧ mkInviteValue c3WitnessHash none none false
        = some ⟨httpsTmePlus ++ c3WitnessHash, none, none, false, c3WitnessHash⟩
    ∧ url ⟨httpsTmePlus ++ c3WitnessHash, none, none, false, c3WitnessHash⟩
        = httpsTmePlus ++ c3WitnessHash :=
  invite_canonicalization_confluent c3WitnessHash none none false (by decide)

/-! Claim C5: the handle round trip. -/

/-- C5: for every name of length 5 to 32 over letters, digits and
underscore, constructing a handle value from `@name` succeeds, stores the
bare `name` (never the leading marker — `@` cannot even occur in the
stored payload), and the `with_at` accessor reproduces `@name` exactly. -/
theorem username_roundtrip (name : List Char)
    (dt : Option Nat) (det : Option (List Char)) (st : Bool)
    (h5 : 5 ≤ name.length) (h32 : name.length ≤ 32)
    (hc : ∀ c ∈ name, isUsernameChar c = true) :
    mkUsernameValue ('@' :: name) dt det st = some ⟨name, dt, det, st, ()⟩
    ∧ with_at ⟨name, dt, det, st, ()⟩ = '@' :: name
    ∧ '@' ∉ name := by
  have hall : name.all isUsernameChar = true := List.all_eq_true.mpr hc
  have hmatch : reClassRangeMatch isUsernameChar 5 32 name = true := by
    simp [reClassRangeMatch, h5, h32, hall]
  refine ⟨?_, rfl, ?_⟩
  · rw [mkUsernameValue]
    show (if reClassRangeMatch isUsernameChar 5 32 name = true
        then some (⟨name, dt, det, st, ()⟩ : HValue Unit) else none)
      = some ⟨name, dt, det, st, ()⟩
    rw [if_pos hmatch]
  · intro hm
    have := hc '@' hm
    exact absurd this (by decide)

/-- Name used by the witness of C5. -/
def c5WitnessName : List Char := ['v', 'a', 'l', 'i', 'd', '_', '0', 'K']

/-- Witness for C5 at a concrete 8-character name. -/
theorem username_roundtrip_witness :
    mkUsernameValue ('@' :: c5WitnessName) (some 3) none true
        = some ⟨c5WitnessName, some 3, none, true, ()⟩
    ∧ with_at ⟨c5WitnessName, some 3, none, true, ()⟩ = '@' :: c5WitnessName
    ∧ '@' ∉ c5WitnessName :=
  username_roundtrip c5WitnessName (some 3) none true (by decide) (by decide)
    (by decide)

/-! Claim C7: the username projection skips placeholders and silently
discards invalid items. -/

theorem projectUsername_eq_some (fv : FieldValue) (v : HValue Unit) :
    projectUsername fv = some v ↔
      ((stripTicksWs fv.value).head? = some '@' ∧
        mkUsernameValue (stripTicksWs fv.value) fv.datetime_obj fv.details
          fv.is_strikethrough = some v) := by
  rw [projectUsername]
  by_cases hh : (stripTicksWs fv.value).head? = some '@'
  · rw [if_pos hh]
    simp [hh]
  · rw [if_neg hh]
    simp [hh]

/-- The `username` field of the C7 scenario: one real handle
`@valid123` and one placeholder `notahandle`. -/
def c7ScenarioField : Field :=
  ⟨[⟨'@' :: ['v', 'a', 'l', 'i', 'd', '1', '2', '3'], none, none, false, none⟩,
    ⟨['n', 'o', 't', 'a', 'h', 'a', 'n', 'd', 'l', 'e'], none, none, false, none⟩]⟩

/-- Document holding only the C7 scenario field. -/
def c7ScenarioDoc : Document := ⟨[], [(keyUsername, c7ScenarioField)]⟩

/-- C7: for every `username` field, the projected collection holds (a
permutation of, by re-sorting) exactly the items whose stripped text
starts with `@` and passes handle validation — items without the marker
are skipped and items failing validation are dropped without aborting
the rest; in the concrete scenario, `@valid123` plus the placeholder
`notahandle` project to the single handle `valid123`. -/
theorem get_usernames_projection (d : Document) (field : Field)
    (hf : d.get_field keyUsername = some field) :
    List.Perm (get_usernames d).values (field.values.filterMap projectUsername)
    ∧ (∀ v, v ∈ (get_usernames d).values ↔
        ∃ fv ∈ field.values,
          (stripTicksWs fv.value).head? = some '@' ∧
          mkUsernameValue (stripTicksWs fv.value) fv.datetime_obj fv.details
            fv.is_strikethrough = some v)
    ∧ (get_usernames c7ScenarioDoc).values
        = [⟨['v', 'a', 'l', 'i', 'd', '1', '2', '3'], none, none, false, ()⟩] := by
  have hu : get_usernames d
      = HistoricalCollection.ofValues (field.values.filterMap projectUsername) := by
    show (match d.get_field keyUsername with
      | none => HistoricalCollection.ofValues []
      | some field =>
        HistoricalCollection.ofValues (field.values.filterMap projectUsername)) = _
    rw [hf]
  refine ⟨?_, ?_, by decide⟩
  · rw [hu]
    exact sortDesc_perm _
  · intro v
    rw [hu]
    show v ∈ sortDesc (field.values.filterMap projectUsername) ↔ _
    rw [mem_sortDesc, List.mem_filterMap]
    constructor
    · rintro ⟨fv, hfv, hp⟩
      exact ⟨fv, hfv, (projectUsername_eq_some fv v).mp hp⟩
    · rintro ⟨fv, hfv, hp⟩
      exact ⟨fv, hfv, (projectUsername_eq_some fv v).mpr hp⟩

/-- Witness for C7: the projection theorem applied to the scenario
document itself. -/
theorem get_usernames_projection_witness :
    List.Perm (get_usernames c7ScenarioDoc).values
        (c7ScenarioField.values.filterMap projectUsername)
    ∧ (∀ v, v ∈ (get_usernames c7ScenarioDoc).values ↔
        ∃ fv ∈ c7ScenarioField.values,
          (stripTicksWs fv.value).head? = some '@' ∧
          mkUsernameValue (stripTicksWs fv.value) fv.datetime_obj fv.details
            fv.is_strikethrough = some v)
    ∧ (get_usernames c7ScenarioDoc).values
        = [⟨['v', 'a', 'l', 'i', 'd', '1', '2', '3'], none, none, false, ()⟩] :=
  get_usernames_projection c7ScenarioDoc c7ScenarioField (by decide)

/-! Claim C4: identifier resolution. -/

theorem stripWhile_eq_self (p : Char → Bool) (s : List Char)
    (h : ∀ c ∈ s, p c = false) : stripWhile p s = s := by
  rw [stripWhile]
  have h1 : s.dropWhile p = s := by
    cases s with
    | nil => rfl
    | cons a t =>
      rw [List.dropWhile_cons]
      simp [h a (by simp)]
  rw [h1]
  have h2 : s.reverse.dropWhile p = s.reverse := by
    cases hrev : s.reverse with
    | nil => rfl
    | cons a t =>
      have ha : a ∈ s := by
        rw [← List.mem_reverse, hrev]
        simp
      rw [List.dropWhile_cons]
      simp [h a ha, hrev]
  rw [h2, List.reverse_reverse]

theorem pyIsSpace_of_isDigit (c : Char) (h : c.isDigit = true) :
    pyIsSpace c = false := by
  cases hsp : pyIsSpace c
  · rfl
  · exfalso
    rw [pyIsSpace] at hsp
    simp only [Bool.or_eq_true, decide_eq_true_eq] at hsp
    rcases hsp with ((((h1 | h1) | h1) | h1) | h1) | h1 <;>
      (subst h1; exact absurd h (by decide))

theorem pyDigitTail_all_digits :
    ∀ (s : List Char), (∀ c ∈ s, c.isDigit = true) →
      ∀ acc, pyDigitTail acc s = some (s.foldl (fun a c => a * 10 + digitVal c) acc) := by
  intro s
  induction s with
  | nil => intro _ acc; rfl
  | cons c rest ih =>
    intro hs acc
    have hcd : c.isDigit = true := hs c (List.mem_cons_self c rest)
    cases rest with
    | nil =>
      show (if c.isDigit then some (acc * 10 + digitVal c) else none) = _
      rw [if_pos hcd]
      rfl
    | cons c2 r2 =>
      show (if c.isDigit then pyDigitTail (acc * 10 + digitVal c) (c2 :: r2)
          else if c = '_' && c2.isDigit then pyDigitTail (acc * 10 + digitVal c2) r2
          else none) = _
      rw [if_pos hcd, List.foldl_cons]
      exact ih (fun x hx => hs x (List.mem_cons_of_mem c hx)) _

theorem pyIntOfList_digits (s : List Char) (hne : s ≠ [])
    (hs : ∀ c ∈ s, c.isDigit = true) :
    pyIntOfList s = some (Int.ofNat (digitsToNat s)) := by
  have hstrip : stripWhile pyIsSpace s = s :=
    stripWhile_eq_self pyIsSpace s (fun c hc => pyIsSpace_of_isDigit c (hs c hc))
  rw [pyIntOfList, hstrip]
  cases s with
  | nil => exact absurd rfl hne
  | cons c rest =>
    have hcd : c.isDigit = true := hs c (List.mem_cons_self c rest)
    have hrest : ∀ x ∈ rest, x.isDigit = true :=
      fun x hx => hs x (List.mem_cons_of_mem c hx)
    have hnp : c ≠ '+' := fun hEq => absurd (hEq ▸ hcd) (by decide)
    have hnm : c ≠ '-' := fun hEq => absurd (hEq ▸ hcd) (by decide)
    show (if c = '+' then (pyParseUnsigned rest).map (fun n => (n : Int))
        else if c = '-' then (pyParseUnsigned rest).map (fun n => -(n : Int))
        else (pyParseUnsigned (c :: rest)).map (fun n => (n : Int)))
      = some (Int.ofNat (digitsToNat (c :: rest)))
    rw [if_neg hnp, if_neg hnm]
    show ((if c.isDigit then pyDigitTail (digitVal c) rest else none).map
        (fun n => (n : Int)))
      = some (Int.ofNat (digitsToNat (c :: rest)))
    rw [if_pos hcd, pyDigitTail_all_digits rest hrest]
    rw [digitsToNat, List.foldl_cons]
    have h0 : (0 : Nat) * 10 + digitVal c = digitVal c := by omega
    rw [h0]
    rfl

/-- C4 (amended): if the `id` field is absent, `get_id` returns nothing
and raises no error; if the stripped text consists of digits, `get_id`
returns the denoted integer; and `get_id` raises `InvalidFieldError`
exactly on text that fails Python's `int` parse — which accepts not only
digit strings but also optionally signed and underscore-grouped ones, so
"non-digit text" such as `-5` returns an integer instead of raising (see
the counterexample). -/
theorem get_id_resolution (d : Document) :
    (d.get_value keyId = none → get_id d = Except.ok none)
    ∧ (∀ fv, d.get_value keyId = some fv →
        ((stripTicksWs fv.value ≠ [] ∧
            ∀ c ∈ stripTicksWs fv.value, c.isDigit = true) →
          get_id d = Except.ok (some (Int.ofNat (digitsToNat (stripTicksWs fv.value)))))
        ∧ (pyIntOfList (stripTicksWs fv.value) = none →
          get_id d = Except.error fv.value)) := by
  constructor
  · intro h
    show (match d.get_value keyId with
      | none => Except.ok none
      | some v =>
        match pyIntOfList (stripTicksWs v.value) with
        | some n => Except.ok (some n)
        | none => Except.error v.value) = _
    rw [h]
  · intro fv hfv
    have hid : get_id d = (match pyIntOfList (stripTicksWs fv.value) with
        | some n => Except.ok (some n)
        | none => Except.error fv.value) := by
      show (match d.get_value keyId with
        | none => Except.ok none
        | some v =>
          match pyIntOfList (stripTicksWs v.value) with
          | some n => Except.ok (some n)
          | none => Except.error v.value) = _
      rw [hfv]
    constructor
    · intro ⟨hne, hdig⟩
      rw [hid, pyIntOfList_digits (stripTicksWs fv.value) hne hdig]
    · intro hnone
      rw [hid, hnone]

/-- Document with id text `-5`, which Python's `int` parses. -/
def c4Neg5Doc : Document :=
  ⟨[(keyId, ⟨['-', '5'], none, none, false, none⟩)], []⟩

/-- Counterexample to C4 as stated: on the non-digit text `-5`, `get_id`
does not raise but returns the integer `-5`. -/
theorem get_id_counterexample :
    get_id c4Neg5Doc = Except.ok (some (-5))
    ∧ ¬(∀ c ∈ stripTicksWs ['-', '5'], c.isDigit = true) :=
  ⟨rfl, by decide⟩

/-- Document with no id field. -/
def c4AbsentDoc : Document := ⟨[], []⟩

/-- Document with digit id text `123`. -/
def c4DigitsDoc : Document :=
  ⟨[(keyId, ⟨['1', '2', '3'], none, none, false, none⟩)], []⟩

/-- Document with unparsable id text `xy`. -/
def c4BadDoc : Document :=
  ⟨[(keyId, ⟨['x', 'y'], none, none, false, none⟩)], []⟩

/-- Witness for C4's amended theorem at its three branches. -/
theorem get_id_resolution_witness :
    get_id c4AbsentDoc = Except.ok none
    ∧ get_id c4DigitsDoc
        = Except.ok (some (Int.ofNat (digitsToNat (stripTicksWs ['1', '2', '3']))))
    ∧ get_id c4BadDoc = Except.error ['x', 'y'] :=
  ⟨(get_id_resolution c4AbsentDoc).1 rfl,
    ((get_id_resolution c4DigitsDoc).2 ⟨['1', '2', '3'], none, none, false, none⟩
      rfl).1 (by decide),
    ((get_id_resolution c4BadDoc).2 ⟨['x', 'y'], none, none, false, none⟩
      rfl).2 rfl⟩

/-! Claim C8: the no-identifier warning of `validate`. -/

/-- C8 (amended): `validate` (a total function — it converts the
`get_type`/`get_id` exceptions into warnings and never raises) emits the
no-identifier warning exactly when no identifier resolves — the id field
is absent or its value unparsable — and the handle history is empty and
the invite history is empty. The claim's "identifier is absent" is too
narrow: a present-but-invalid id also counts as missing here (see the
counterexample). An entity with a valid identifier never gets this
warning. -/
theorem validate_no_identifier_warning (d : Document) :
    Warning.noIdentifier ∈ validate d ↔
      (resolvedId d = none ∧ (get_usernames d).values = []
        ∧ (get_invites d).values = []) := by
  have ht : Warning.noIdentifier ∉ (match get_type d with
      | Except.ok _ => ([] : List Warning)
      | Except.error TypeErr.missingField => [Warning.typeMissing]
      | Except.error (TypeErr.invalidType t) => [Warning.typeInvalid t]) := by
    rcases get_type d with e | t
    · cases e
      · intro hmem
        exact Warning.noConfusion (List.mem_singleton.mp hmem)
      · intro hmem
        exact Warning.noConfusion (List.mem_singleton.mp hmem)
    · exact List.not_mem_nil _
  have hi : Warning.noIdentifier ∉ (match get_id d with
      | Except.ok _ => ([] : List Warning)
      | Except.error s => [Warning.idInvalid s]) := by
    rcases get_id d with e | v
    · intro hmem
      exact Warning.noConfusion (List.mem_singleton.mp hmem)
    · exact List.not_mem_nil _
  have hid : ((match get_id d with
        | Except.ok (some _) => true
        | _ => false) = false) ↔ resolvedId d = none := by
    rw [resolvedId]
    rcases get_id d with e | v
    · simp
    · rcases v with _ | n <;> simp
  have hu : ((get_usernames d).values.isEmpty = true)
      ↔ (get_usernames d).values = [] := by
    cases (get_usernames d).values <;> simp
  have hv : ((get_invites d).values.isEmpty = true)
      ↔ (get_invites d).values = [] := by
    cases (get_invites d).values <;> simp
  rw [validate]
  rw [List.mem_append, List.mem_append]
  constructor
  · rintro ((h | h) | h)
    · exact absurd h ht
    · exact absurd h hi
    · by_cases hcond : (!(match get_id d with
          | Except.ok (some _) => true
          | _ => false)
          && !(!(get_usernames d).values.isEmpty)
          && !(!(get_invites d).values.isEmpty)) = true
      · have hc := hcond
        simp only [Bool.and_eq_true, Bool.not_eq_true', Bool.not_eq_false'] at hc
        exact ⟨hid.mp hc.1.1, hu.mp hc.1.2, hv.mp hc.2⟩
      · rw [if_neg hcond] at h
        exact absurd h (List.not_mem_nil _)
  · rintro ⟨h1, h2, h3⟩
    refine Or.inr ?_
    have hcond : (!(match get_id d with
        | Except.ok (some _) => true
        | _ => false)
        && !(!(get_usernames d).values.isEmpty)
        && !(!(get_invites d).values.isEmpty)) = true := by
      simp only [Bool.and_eq_true, Bool.not_eq_true', Bool.not_eq_false']
      exact ⟨⟨hid.mpr h1, hu.mpr h2⟩, hv.mpr h3⟩
    rw [if_pos hcond]
    exact List.mem_singleton.mpr rfl

/-- Document whose id field holds the unparsable text `abc` and which has
no other field: the identifier is present but invalid. -/
def c8InvalidIdDoc : Document :=
  ⟨[(keyId, ⟨['a', 'b', 'c'], none, none, false, none⟩)], []⟩

/-- Counterexample to C8 as stated: the no-identifier warning is emitted
although the identifier field is present (its value merely fails to
parse), so the warning does not appear "exactly when the identifier is
absent". -/
theorem validate_counterexample :
    Warning.noIdentifier ∈ validate c8InvalidIdDoc
    ∧ (c8InvalidIdDoc.get_value keyId).isSome = true := by
  refine ⟨?_, by decide⟩
  have : validate c8InvalidIdDoc
      = [Warning.typeMissing, Warning.idInvalid ['a', 'b', 'c'],
          Warning.noIdentifier] := by decide
  rw [this]
  simp

end TelegramMdml
